import Mathlib

/-!
Shallow embedding of the vikingchess engine core (9×9 Tafl rules engine).

The embedding follows the repository's source modules:
`piece.rs`, `square.rs`, `mask.rs`, `bitboard.rs`, `magics.rs`, `zobrist.rs`,
`action.rs`, `state.rs`, `board.rs`.

Masks are `u128` values in the source; here they are `Nat` with explicit
`% 2^128` where the source wraps (`wrapping_mul`) and with the u128
complement written `compl128` (the source's `!mask`).  The Zobrist table is
random in the source (`rand::rng`), so it is modelled as an arbitrary
function parameter.  Fallible Rust functions (`VikingChessResult`) become
`Option`-valued functions; the outcome of `Board::move_piece`, which can
also panic, is a three-way `MoveOutcome`.
-/

namespace VikingChess

/-- `piece.rs`: the `Piece` enum.  The `Length` discriminant of the Rust
enum is only a count sentinel (indexing a `Bitboard` with it panics), so it
is not a constructor here. -/
inductive Piece where
  | king
  | defender
  | attacker
deriving DecidableEq, Repr

/-- `piece.rs`: `Piece::opposite`. -/
def Piece.opposite : Piece → Piece
  | .king => .attacker
  | .defender => .attacker
  | .attacker => .defender

/-- `square.rs`: the `Square` struct, `row` and `col` fields (`u8` in the
source; `Nat` here, with in-range hypotheses stated where the source would
panic on out-of-range shifts). -/
structure Square where
  row : Nat
  col : Nat
deriving DecidableEq, Repr

/-- `square.rs`: `Square::index` (`row * 9 + col`). -/
def Square.index (s : Square) : Nat := s.row * 9 + s.col

/-- `square.rs`: `Square::mask` (`1 << index`). -/
def Square.mask (s : Square) : Nat := 1 <<< s.index

/-- `square.rs`: `impl TryFrom<(u8, u8)> for Square`.  The tuple is read as
`(col, row)`: it fails when either component is `≥ 9`, and otherwise builds
`Square { row: value.1, col: value.0 }`. -/
def tryFromPair (a b : Nat) : Option Square :=
  if 9 ≤ a ∨ 9 ≤ b then none else some ⟨b, a⟩

/-- `square.rs`: `impl TryFrom<usize> for Square`. -/
def tryFromIndex (n : Nat) : Option Square :=
  if 81 ≤ n then none else some ⟨n / 9, n % 9⟩

/-- Modelled from the spec: `Square::try_from_offset` is used by
`EliminatedPiecesIter::next` (board.rs) but its definition is not under
`src/`.  Spec §3/§4.1: a signed (Δrow, Δcol) delta in `[-2,+2]` is encoded
as one integer `k` over a 5×5 window (`Δrow = k/5 - 2`, `Δcol = k%5 - 2`,
the same scheme `Square::interjacent_mask` uses for `[2,10,14,22]`), and
construction fails if the result falls outside the board. -/
def Square.tryFromOffset (s : Square) (k : Nat) : Option Square :=
  let r : Int := (s.row : Int) + ((k : Int) / 5 - 2)
  let c : Int := (s.col : Int) + ((k : Int) % 5 - 2)
  if 0 ≤ r ∧ r < 9 ∧ 0 ≤ c ∧ c < 9 then some ⟨r.toNat, c.toNat⟩ else none

/-- The u128 complement `!x` of the source's `Mask` type. -/
def compl128 (x : Nat) : Nat := (2 ^ 128 - 1) ^^^ x

/-- `bitboard.rs`: the `Bitboard` struct — one `Mask` per piece kind. -/
structure Bitboard where
  king : Nat
  defender : Nat
  attacker : Nat
deriving DecidableEq, Repr

/-- `bitboard.rs`: `impl Index<Piece> for Bitboard`. -/
def Bitboard.pieceMask (bb : Bitboard) : Piece → Nat
  | .king => bb.king
  | .defender => bb.defender
  | .attacker => bb.attacker

/-- Updating one piece's mask, as `impl IndexMut<Piece> for Bitboard`. -/
def Bitboard.setPiece (bb : Bitboard) : Piece → Nat → Bitboard
  | .king, m => { bb with king := m }
  | .defender, m => { bb with defender := m }
  | .attacker, m => { bb with attacker := m }

/-- `bitboard.rs`: `Bitboard::all` — the fold over `Piece::PIECES`
(`['A','D','K']`), i.e. `attacker | defender | king`. -/
def Bitboard.all (bb : Bitboard) : Nat := bb.attacker ||| bb.defender ||| bb.king

/-- OR of single bits at the given indices (helper to state masks whose
bits are a known index list). -/
def bitsOf (l : List Nat) : Nat := l.foldr (fun i m => (1 <<< i) ||| m) 0

/-- `bitboard.rs`: `Bitboard::moves` — the full rook-style reach of a
square: `(0x1008040201008040201 << col | 0x1ff << 9*row) & !square.mask()`. -/
def movesMask (col row : Nat) : Nat :=
  ((0x1008040201008040201 <<< col) ||| (0x1ff <<< (9 * row))) &&&
    compl128 (1 <<< (row * 9 + col))

/-- Modelled from the spec: `Bitboard::blockers` is called by
`Board::moves` (board.rs) but its definition is not under `src/`.
Spec §4.2: the occupancy-relevant subset of `moves(square)` — the
outermost square of each ray (the board-edge end of the column ray, rows 0
and 8, and of the row ray, columns 0 and 8) is removed, since nothing can
stand behind it.  The resulting per-square popcount matches the in-source
`MagicTable::SHIFTS` table exactly (see `blockersMask_popcount_eq_shifts`). -/
def blockersMask (col row : Nat) : Nat :=
  movesMask col row &&&
    compl128 (bitsOf [0 * 9 + col, 8 * 9 + col, row * 9 + 0, row * 9 + 8])

/-- One outward ray walk, as the source's `for … { if blocked break; … }`
loops in `Bitboard::legal_moves`: starting at step `k`, for at most `n`
steps, collect `f k, f (k+1), …` until the first index whose bit is set in
`B` (exclusive). -/
def walkG (B : Nat) (f : Nat → Nat) : Nat → Nat → List Nat
  | _, 0 => []
  | k, n + 1 => if B.testBit (f k) then [] else f k :: walkG B f (k + 1) n

/-- `bitboard.rs`: `Bitboard::legal_moves` — ray-cast in the four
orthogonal directions from `(col, row)`, stopping (exclusive) at the first
square whose bit is set in `blockers`.  The four `walkG` calls mirror the
four source loops: rows `rank+1..9`, rows `(0..rank).rev()`, columns
`file+1..9`, columns `(0..file).rev()`. -/
def legalMoves (col row : Nat) (B : Nat) : Nat :=
  bitsOf (walkG B (fun r => 9 * r + col) (row + 1) (8 - row)) |||
  bitsOf (walkG B (fun m => 9 * (row - 1 - m) + col) 0 row) |||
  bitsOf (walkG B (fun c => 9 * row + c) (col + 1) (8 - col)) |||
  bitsOf (walkG B (fun m => 9 * row + (col - 1 - m)) 0 col)

/-- `bitboard.rs`: `Bitboard::from_fen`'s treatment of a piece letter. -/
def pieceOfChar (c : Char) : Option Piece :=
  if c = 'A' then some .attacker
  else if c = 'D' then some .defender
  else if c = 'K' then some .king
  else none

/-- `ch.to_digit(10)` of the source. -/
def digitVal (c : Char) : Option Nat :=
  if c.isDigit then some (c.toNat - 48) else none

/-- `bitboard.rs`: the loop body of `Bitboard::from_fen`, processing the
characters left to right with the current `(col, row)` cursor.  The branch
order matches the source `if`/`else if` chain: piece letter, digit, the
error condition `(ch == '/' && col % 9 != 0) || col > 9`, row separator,
and silently ignored anything else.  `col` and `row` are `u8` in the
source, so every increment is taken modulo 256 (the wrapping semantics of
a release build; a debug build would abort on the overflowing addition
instead of continuing). -/
def fromFenGo : Bitboard → Nat → Nat → List Char → Option Bitboard
  | bb, _, _, [] => some bb
  | bb, col, row, c :: rest =>
    match pieceOfChar c with
    | some p =>
      match tryFromPair col row with
      | some sq =>
        fromFenGo (bb.setPiece p (bb.pieceMask p ||| sq.mask)) ((col + 1) % 256) row rest
      | none => none
    | none =>
      match digitVal c with
      | some d => fromFenGo bb ((col + d) % 256) row rest
      | none =>
        if (c = '/' ∧ col % 9 ≠ 0) ∨ 9 < col then none
        else if c = '/' then fromFenGo bb 0 ((row + 1) % 256) rest
        else fromFenGo bb col row rest

/-- `bitboard.rs`: `Bitboard::from_fen`. -/
def Bitboard.fromFen (s : List Char) : Option Bitboard := fromFenGo ⟨0, 0, 0⟩ 0 0 s

/-- `board.rs`: `Board::STARTING_FEN`. -/
def startingFen : List Char := "3AAA3/4A4/4D4/A3D3A/AADDKDDAA/A3D3A/4D4/4A4/3AAA3 B".toList

/-- `board.rs`: `Board::from_fen` — the layout part before the first space
goes to `Bitboard::from_fen`, the second space-separated token selects the
side to move (`"B"` = Attacker, `"W"` = Defender, anything else panics in
the source, modelled as `none`). -/
def boardFromFen (s : List Char) : Option (Bitboard × Piece) :=
  let first := s.takeWhile (· ≠ ' ')
  let second := ((s.dropWhile (· ≠ ' ')).drop 1).takeWhile (· ≠ ' ')
  match Bitboard.fromFen first, second with
  | some bb, ['B'] => some (bb, .attacker)
  | some bb, ['W'] => some (bb, .defender)
  | _, _ => none

/-- `action.rs`: the `Action` struct (`piece`, `from`, `to`). -/
structure Action where
  piece : Piece
  fromSq : Square
  toSq : Square
deriving DecidableEq, Repr

/-- `action.rs`: `Action::valid` — `bitboard[piece] & from.mask() > 0`. -/
def Action.valid (a : Action) (bb : Bitboard) : Prop :=
  0 < bb.pieceMask a.piece &&& a.fromSq.mask

instance (a : Action) (bb : Bitboard) : Decidable (a.valid bb) := by
  unfold Action.valid; infer_instance

/-- `action.rs`: `Action::turn_valid` — `from.mask() & turn_mask > 0`. -/
def Action.turnValid (a : Action) (turnMask : Nat) : Prop :=
  0 < a.fromSq.mask &&& turnMask

instance (a : Action) (m : Nat) : Decidable (a.turnValid m) := by
  unfold Action.turnValid; infer_instance

/-- `state.rs`: the `State` struct. -/
structure State where
  zobristHash : Nat
  turn : Piece
  action : Option Action
deriving DecidableEq, Repr

/-- `magics.rs`: the `MagicTable` struct.  The source's
`Vec<HashMap<Mask, Mask>>` lookup (`moves[square_index][&index]`, which
panics on a missing key) is modelled as a total function from square index
and hash index to the stored mask. -/
structure MagicTable where
  magics : Nat → Nat
  moves : Nat → Nat → Nat

/-- `magics.rs`: `MagicTable::SHIFTS`. -/
def shiftsTable : List Nat :=
  [14, 13, 13, 13, 13, 13, 13, 13, 14,
   13, 12, 12, 12, 12, 12, 12, 12, 13,
   13, 12, 12, 12, 12, 12, 12, 12, 13,
   13, 12, 12, 12, 12, 12, 12, 12, 13,
   13, 12, 12, 12, 12, 12, 12, 12, 13,
   13, 12, 12, 12, 12, 12, 12, 12, 13,
   13, 12, 12, 12, 12, 12, 12, 12, 13,
   13, 12, 12, 12, 12, 12, 12, 12, 13,
   14, 13, 13, 13, 13, 13, 13, 13, 14]

/-- `SHIFTS[square_index]`. -/
def shiftAt (i : Nat) : Nat := shiftsTable.getD i 0

/-- The magic-index computation of `Board::moves`:
`Mask(blockers.wrapping_mul(magic.0) >> (128 - shift))` — a wrapping u128
multiplication followed by a right shift. -/
def magicIndex (magic shift P : Nat) : Nat := ((P * magic) % 2 ^ 128) >>> (128 - shift)

/-- Modelled from the spec: `Mask::CORNER_MASK` is used by
`Board::move_piece` (board.rs) but is not defined under `src/`.  Spec
glossary: a corner is a board corner square, so the four corners of the
9×9 board — indices 0, 8, 72, 80. -/
def cornerMask : Nat := bitsOf [0, 8, 72, 80]

/-- Modelled from the spec: `Mask::THRONE_MASK` is used by
`Board::move_piece` (board.rs) but is not defined under `src/`.  Spec
glossary: the throne is the center square — `(4,4)`, index 40. -/
def throneMask : Nat := 1 <<< 40

/-- `board.rs`: the `Board` struct.  The Zobrist table (random `u64` keys
in the source) is an arbitrary key function. -/
structure Board where
  bitboard : Bitboard
  zobristTable : Piece → Square → Nat
  history : List State
  state : State

/-- `board.rs`: `Board::turn_mask`.  The source panics when the stored
turn is not Attacker or Defender; that case is `none`. -/
def Board.turnMask? (b : Board) : Option Nat :=
  match b.state.turn with
  | .attacker => some b.bitboard.attacker
  | .defender => some (b.bitboard.defender ||| b.bitboard.king)
  | .king => none

/-- The value of `Board::turn_mask` on the two live turns (Attacker's own
pieces, or Defender's pieces unioned with the King's). -/
def Board.turnMaskD (b : Board) : Nat :=
  match b.state.turn with
  | .attacker => b.bitboard.attacker
  | _ => b.bitboard.defender ||| b.bitboard.king

/-- `board.rs`: `Board::moves` — with a magic table, restrict the blockers
to the relevant mask, compute the magic index and look the move mask up,
masking out occupied squares; without one, fall back to
`Bitboard::legal_moves`. -/
def Board.movesFn (b : Board) (sq : Square) (t : Option MagicTable) : Nat :=
  let blockers := movesMask sq.col sq.row &&& b.bitboard.all
  match t with
  | some mt =>
    let rel := blockers &&& blockersMask sq.col sq.row
    mt.moves sq.index (magicIndex (mt.magics sq.index) (shiftAt sq.index) rel) &&&
      compl128 b.bitboard.all
  | none => legalMoves sq.col sq.row blockers

/-- `board.rs`: `Board::remove_piece` — clear the piece's bit and XOR the
hash with the key for `(piece, square)`. -/
def Board.removePiece (b : Board) (p : Piece) (sq : Square) : Board :=
  { b with
    bitboard := b.bitboard.setPiece p (b.bitboard.pieceMask p &&& compl128 sq.mask)
    state := { b.state with zobristHash := b.state.zobristHash ^^^ b.zobristTable p sq } }

/-- `board.rs`: `Board::add_piece` — set the piece's bit and XOR the hash
with the key for `(piece, square)`. -/
def Board.addPiece (b : Board) (p : Piece) (sq : Square) : Board :=
  { b with
    bitboard := b.bitboard.setPiece p (b.bitboard.pieceMask p ||| sq.mask)
    state := { b.state with zobristHash := b.state.zobristHash ^^^ b.zobristTable p sq } }

/-- The three ways a `Board::move_piece` call can end in the source:
a panic (`&mut self` semantics make the other two return the resulting
board — unchanged on an `Err`). -/
inductive MoveOutcome where
  | panicked
  | failed (b : Board)
  | moved (b : Board)

/-- `board.rs`: `Board::move_piece`.  Checks, in source order: presence
(panic on violation), turn ownership, corner restriction, throne
restriction, reachability (`!moves & to.mask() > 0` is the u128 complement
of the computed move mask intersected with the destination bit); on
success remove the piece at `from`, add it at `to` and record the action.
The turn is not toggled and the history is not touched — `toggle_turn` and
`save` are separate methods. -/
def Board.movePiece (b : Board) (a : Action) (t : Option MagicTable) : MoveOutcome :=
  if ¬ a.valid b.bitboard then .panicked
  else
    match b.turnMask? with
    | none => .panicked
    | some tm =>
      if ¬ a.turnValid tm then .failed b
      else if a.piece ≠ .king ∧ 0 < a.toSq.mask &&& cornerMask then .failed b
      else if 0 < a.toSq.mask &&& throneMask then .failed b
      else
        let mvs := b.movesFn a.fromSq t
        if 0 < compl128 mvs &&& a.toSq.mask then .failed b
        else
          let b2 := (b.removePiece a.piece a.fromSq).addPiece a.piece a.toSq
          .moved { b2 with state := { b2.state with action := some a } }

/-- `board.rs`: `Board::toggle_turn`.  The source panics when the turn is
not Attacker or Defender; that (unreachable after a successful move) case
leaves the board unchanged here. -/
def Board.toggleTurn (b : Board) : Board :=
  match b.state.turn with
  | .attacker => { b with state := { b.state with turn := .defender } }
  | .defender => { b with state := { b.state with turn := .attacker } }
  | .king => b

/-- `board.rs`: `Board::save` — push a copy of the current state onto the
history. -/
def Board.save (b : Board) : Board := { b with history := b.history ++ [b.state] }

/-- `board.rs`: the `OFFSETS` table of `EliminatedPiecesIter::next` —
per direction, the (ally, enemy) offset pair: up `(2,7)`, left `(10,11)`,
right `(14,13)`, down `(22,17)` in the 5×5 offset encoding. -/
def offsetsList : List (Nat × Nat) := [(2, 7), (10, 11), (14, 13), (22, 17)]

/-- `board.rs`: the `[ally_mask, enemy_mask]` selection of
`EliminatedPiecesIter::next`, keyed on `killer.0.opposite()`.  (`opposite`
never returns King, so that arm — `unreachable!()` in the source — is
dead.) -/
def sideMasks (bb : Bitboard) : Piece → Nat × Nat
  | .defender => (bb.attacker, bb.defender ||| bb.king)
  | .attacker => (bb.defender ||| bb.king, bb.attacker)
  | .king => (0, 0)

/-- `board.rs`: one iteration of the `while` loop of
`EliminatedPiecesIter::next` — the capture decision for a single
direction's `(ally_offset, enemy_offset)` pair. -/
def dirCapture (bb : Bitboard) (killerPiece : Piece) (killerSq : Square)
    (off : Nat × Nat) : Option (Piece × Square) :=
  let opposite := killerPiece.opposite
  let masks := sideMasks bb opposite
  match killerSq.tryFromOffset off.1, killerSq.tryFromOffset off.2 with
  | some allyPos, some enemyPos =>
    let isAllyPresent := decide (0 < allyPos.mask &&& masks.1)
    let isEnemyPresent := decide (0 < enemyPos.mask &&& masks.2)
    let isEnemyNotKing := decide (0 < bb.defender &&& enemyPos.mask)
    if ¬ isAllyPresent ∨ ¬ isEnemyPresent then none
    else
      some (match decide (opposite = .attacker), isEnemyNotKing with
            | true, false => .attacker
            | false, true => .defender
            | _, _ => .king,
            enemyPos)
  | _, _ => none

/-- `board.rs`: the full finite sequence an `EliminatedPiecesIter` yields
(the counter walks the four `OFFSETS` entries once, the bitboard is not
mutated during iteration). -/
def eliminatedPieces (bb : Bitboard) (killer : Piece × Square) : List (Piece × Square) :=
  offsetsList.filterMap (dirCapture bb killer.1 killer.2)

/-! ### Specification-side predicates and witness fixtures -/

/-- Spec side (for the `legal_moves` claim): square `(c, r)` is reached by
walking outward from `(col, row)` in one of the four orthogonal directions,
stopping (exclusively) at the first square whose bit is set in `B`: the
target and every square strictly between it and the start are clear. -/
def reached (col row B c r : Nat) : Prop :=
  (c = col ∧ row < r ∧ ∀ k, row < k → k ≤ r → B.testBit (9 * k + col) = false) ∨
  (c = col ∧ r < row ∧ ∀ k, r ≤ k → k < row → B.testBit (9 * k + col) = false) ∨
  (r = row ∧ col < c ∧ ∀ k, col < k → k ≤ c → B.testBit (9 * row + k) = false) ∨
  (r = row ∧ c < col ∧ ∀ k, c ≤ k → k < col → B.testBit (9 * row + k) = false)

/-- Number of board squares in a mask (popcount over the 81-bit domain). -/
def countBits (x : Nat) : Nat := (List.range 81).countP (fun i => x.testBit i)

/-- No square holds two pieces: the three per-piece masks are pairwise
disjoint. -/
def Bitboard.disjoint (bb : Bitboard) : Prop :=
  bb.king &&& bb.defender = 0 ∧ bb.king &&& bb.attacker = 0 ∧
    bb.defender &&& bb.attacker = 0

instance (bb : Bitboard) : Decidable bb.disjoint := by
  unfold Bitboard.disjoint; infer_instance

/-- Square index `i` is set in at most one of the three per-piece masks. -/
def Bitboard.atMostOneAt (bb : Bitboard) (i : Nat) : Prop :=
  ¬(bb.king.testBit i = true ∧ bb.defender.testBit i = true) ∧
  ¬(bb.king.testBit i = true ∧ bb.attacker.testBit i = true) ∧
  ¬(bb.defender.testBit i = true ∧ bb.attacker.testBit i = true)

/-- The action's squares lie on the 9×9 board (a `Square` outside it makes
the source panic on a `1 << index` shift overflow or a
`Square::try_from(...).unwrap()` inside `legal_moves`, so such an action is
never *accepted*). -/
def Action.inRange (a : Action) : Prop :=
  a.fromSq.row < 9 ∧ a.fromSq.col < 9 ∧ a.toSq.row < 9 ∧ a.toSq.col < 9

instance (a : Action) : Decidable a.inRange := by
  unfold Action.inRange; infer_instance

/-- One caller step of the orchestration described in spec §2/§4.5: submit
the action via `move_piece`; on success toggle the turn and save the state,
on a failure (or panic) leave the board as it is. -/
def stepAction (t : Option MagicTable) (b : Board) (a : Action) : Board :=
  match b.movePiece a t with
  | .moved b2 => b2.toggleTurn.save
  | _ => b

/-- A whole sequence of submitted actions. -/
def runActions (b : Board) (t : Option MagicTable) (acts : List Action) : Board :=
  acts.foldl (stepAction t) b

/-- Spec side (capture claim): the mask of the pieces allied with the
mover (Attacker's own pieces; the Defender side includes the King). -/
def moverSideMask (bb : Bitboard) : Piece → Nat
  | .attacker => bb.attacker
  | _ => bb.defender ||| bb.king

/-- Spec side (capture claim): the mask of the side opposite the mover. -/
def enemySideMask (bb : Bitboard) : Piece → Nat
  | .attacker => bb.defender ||| bb.king
  | _ => bb.attacker

/-- Spec side (`from_fen` claim): `charVal` is the column width one layout
character contributes — 1 for a piece letter, its value for a digit gap,
0 otherwise. -/
def charVal (c : Char) : Nat :=
  match pieceOfChar c with
  | some _ => 1
  | none =>
    match digitVal c with
    | some d => d
    | none => 0

/-- Spec side (`from_fen` claim): every `/`-separated row's letters and
digit gaps sum to exactly 9 (`col` is the sum accumulated so far in the
current row). -/
def goodRows : Nat → List Char → Bool
  | col, [] => col == 9
  | col, c :: rest =>
    if c = '/' then col == 9 && goodRows 0 rest else goodRows (col + charVal c) rest

/-- Spec side (`from_fen` claim): the accumulated column count of the
row in progress after reading the characters — piece letters add 1,
digits add their value, a separator resets to 0 — tracked modulo 256,
exactly as the source's `u8` accumulator wraps. -/
def simCol : Nat → List Char → Nat
  | col, [] => col
  | col, c :: rest =>
    if c = '/' then simCol 0 rest else simCol ((col + charVal c) % 256) rest

/-! Concrete fixtures used by the witnesses. -/

/-- The all-zero Zobrist key table (keys are arbitrary in the model). -/
def ztZero : Piece → Square → Nat := fun _ _ => 0

/-- The decoded starting-layout bitboard. -/
def startBitboard : Bitboard :=
  (Bitboard.fromFen (startingFen.takeWhile (· ≠ ' '))).getD ⟨0, 0, 0⟩

/-- An initial state: Attacker to move, no last action (hash keys are all
zero, so the initial hash is 0). -/
def startState : State := ⟨0, .attacker, none⟩

/-- A concrete starting board. -/
def startBoard : Board := ⟨startBitboard, ztZero, [startState], startState⟩

/-- The attacker at index 13 = (row 1, col 4) tries to enter the throne. -/
def actThrone : Action := ⟨.attacker, ⟨1, 4⟩, ⟨4, 4⟩⟩

/-- The attacker at index 13 = (row 1, col 4) steps right to index 14. -/
def actStep : Action := ⟨.attacker, ⟨1, 4⟩, ⟨1, 5⟩⟩

/-- The board resulting from the accepted `actStep` move. -/
def boardAfterStep : Board :=
  match startBoard.movePiece actStep none with
  | .moved b => b
  | _ => startBoard

/-- Did `move_piece` succeed? -/
def MoveOutcome.isMoved : MoveOutcome → Bool
  | .moved _ => true
  | _ => false

/-- The square (row 1, col 4), index 13, for the magic-table witness. -/
def sq14 : Square := ⟨1, 4⟩

/-- The relevant blocker pattern the fast path queries for `sq14` on the
starting board. -/
def pVal : Nat := (movesMask 4 1 &&& startBitboard.all) &&& blockersMask 4 1

/-- A one-entry magic table answering exactly the queried pattern. -/
def mtW : MagicTable := ⟨fun _ => 0, fun _ _ => legalMoves 4 1 pVal⟩

/-- A capture position: attacker just landed on (4,4); a defender on
(3,4) (index 31) is sandwiched against the attacker on (2,4) (index 22). -/
def bbCap : Bitboard := ⟨0, 1 <<< 31, (1 <<< 40) ||| (1 <<< 22)⟩

/-- The expected attacker squares of the starting layout. -/
def startAttackerIdx : List Nat := [3, 4, 5, 13, 27, 35, 36, 37, 43, 44, 45, 53, 67, 75, 76, 77]

/-- The expected defender squares of the starting layout. -/
def startDefenderIdx : List Nat := [22, 31, 38, 39, 41, 42, 49, 58]

/-- The decoded starting board together with its side to move. -/
def startDecoded : Bitboard × Piece := (boardFromFen startingFen).getD (⟨0, 0, 0⟩, .king)

/-- A layout whose last row accumulates 10 columns with digits only. -/
def overflowFen : List Char := "9/9/9/9/9/9/9/9/55".toList

/-- A layout whose first row accumulates 8 columns at the separator. -/
def badSepFen : List Char := "8/9/9/9/9/9/9/9/9".toList

/-- A ten-row layout in which every row's letters and digit gaps sum to
exactly 9, yet the letter in row index 9 makes decoding fail. -/
def tenRowFen : List Char := "9/9/9/9/9/9/9/9/9/A8".toList

/-! ### Bit-level toolkit -/

theorem bitsOf_nil : bitsOf [] = 0 := rfl

theorem bitsOf_cons (a : Nat) (l : List Nat) : bitsOf (a :: l) = (1 <<< a) ||| bitsOf l := rfl

theorem testBit_bitsOf (l : List Nat) (j : Nat) : (bitsOf l).testBit j = true ↔ j ∈ l := by
  induction l with
  | nil => simp [bitsOf_nil]
  | cons a l ih =>
    rw [bitsOf_cons, Nat.testBit_lor, Nat.one_shiftLeft, Nat.testBit_two_pow]
    simp only [Bool.or_eq_true, decide_eq_true_eq, List.mem_cons, ih]
    exact or_congr_left (by constructor <;> (intro h; exact h.symm))

theorem ne_zero_iff_testBit (x : Nat) : x ≠ 0 ↔ ∃ i, x.testBit i = true := by
  constructor
  · intro h
    by_contra hc
    push_neg at hc
    exact h (Nat.eq_of_testBit_eq fun i => by
      simp only [Nat.zero_testBit]
      exact Bool.not_eq_true _ |>.mp (hc i))
  · rintro ⟨i, hi⟩ rfl
    simp [Nat.zero_testBit] at hi

theorem pos_shiftLeft_land (i m : Nat) : 0 < (1 <<< i) &&& m ↔ m.testBit i = true := by
  rw [Nat.pos_iff_ne_zero, ne_zero_iff_testBit]
  constructor
  · rintro ⟨j, hj⟩
    rw [Nat.testBit_land, Nat.one_shiftLeft, Nat.testBit_two_pow] at hj
    simp only [Bool.and_eq_true, decide_eq_true_eq] at hj
    exact hj.1 ▸ hj.2
  · intro h
    exact ⟨i, by simp [Nat.testBit_land, Nat.one_shiftLeft, Nat.testBit_two_pow, h]⟩

theorem pos_land_shiftLeft (m i : Nat) : 0 < m &&& (1 <<< i) ↔ m.testBit i = true := by
  rw [Nat.land_comm]
  exact pos_shiftLeft_land i m

theorem testBit_compl128_lt (x j : Nat) (h : j < 128) :
    (compl128 x).testBit j = !x.testBit j := by
  unfold compl128
  rw [Nat.testBit_xor, Nat.testBit_two_pow_sub_one]
  simp [h]

theorem testBit_compl128_ge (x j : Nat) (h : 128 ≤ j) :
    (compl128 x).testBit j = x.testBit j := by
  unfold compl128
  rw [Nat.testBit_xor, Nat.testBit_two_pow_sub_one]
  simp [Nat.not_lt.mpr h]

theorem mem_walkG (B : Nat) (f : Nat → Nat) (n k j : Nat) :
    j ∈ walkG B f k n ↔
      ∃ m, k ≤ m ∧ m < k + n ∧ j = f m ∧
        ∀ i, k ≤ i → i ≤ m → B.testBit (f i) = false := by
  induction n generalizing k with
  | zero =>
    simp only [walkG, List.not_mem_nil, false_iff]
    rintro ⟨m, h1, h2, -, -⟩
    omega
  | succ n ih =>
    simp only [walkG]
    by_cases hB : B.testBit (f k)
    · rw [if_pos hB]
      simp only [List.not_mem_nil, false_iff]
      rintro ⟨m, h1, h2, -, hclear⟩
      rw [hclear k (Nat.le_refl k) h1] at hB
      exact Bool.false_ne_true hB
    · rw [if_neg hB]
      simp only [List.mem_cons, ih]
      constructor
      · rintro (rfl | ⟨m, h1, h2, h3, h4⟩)
        · refine ⟨k, Nat.le_refl k, by omega, rfl, fun i hi1 hi2 => ?_⟩
          have : i = k := Nat.le_antisymm hi2 hi1
          subst this
          exact Bool.not_eq_true _ |>.mp hB
        · refine ⟨m, by omega, by omega, h3, fun i hi1 hi2 => ?_⟩
          rcases Nat.eq_or_lt_of_le hi1 with rfl | hlt
          · exact Bool.not_eq_true _ |>.mp hB
          · exact h4 i hlt hi2
      · rintro ⟨m, h1, h2, h3, h4⟩
        rcases Nat.eq_or_lt_of_le h1 with rfl | hlt
        · exact Or.inl h3
        · exact Or.inr ⟨m, hlt, by omega, h3, fun i hi1 hi2 => h4 i (by omega) hi2⟩

/-! ### Characterization of `legal_moves` -/

theorem legalMoves_mem_iff (col row B j : Nat) :
    (legalMoves col row B).testBit j = true ↔
      j ∈ walkG B (fun r => 9 * r + col) (row + 1) (8 - row) ∨
      j ∈ walkG B (fun m => 9 * (row - 1 - m) + col) 0 row ∨
      j ∈ walkG B (fun c => 9 * row + c) (col + 1) (8 - col) ∨
      j ∈ walkG B (fun m => 9 * row + (col - 1 - m)) 0 col := by
  unfold legalMoves
  simp [Nat.testBit_lor, testBit_bitsOf, or_assoc]

theorem legalMoves_bits_square (col row B j : Nat) (hc : col < 9) (hr : row < 9)
    (h : (legalMoves col row B).testBit j = true) :
    ∃ c r, c < 9 ∧ r < 9 ∧ j = 9 * r + c := by
  rw [legalMoves_mem_iff] at h
  rcases h with h | h | h | h
  · obtain ⟨m, h1, h2, h3, -⟩ := (mem_walkG _ _ _ _ _).1 h
    exact ⟨col, m, hc, by omega, h3⟩
  · obtain ⟨m, h1, h2, h3, -⟩ := (mem_walkG _ _ _ _ _).1 h
    exact ⟨col, row - 1 - m, hc, by omega, h3⟩
  · obtain ⟨m, h1, h2, h3, -⟩ := (mem_walkG _ _ _ _ _).1 h
    exact ⟨m, row, by omega, hr, h3⟩
  · obtain ⟨m, h1, h2, h3, -⟩ := (mem_walkG _ _ _ _ _).1 h
    exact ⟨col - 1 - m, row, by omega, hr, h3⟩

theorem legalMoves_testBit_iff (col row B : Nat) (hc : col < 9) (hr : row < 9)
    (c r : Nat) (hcc : c < 9) (hrr : r < 9) :
    (legalMoves col row B).testBit (9 * r + c) = true ↔ reached col row B c r := by
  rw [legalMoves_mem_iff]
  unfold reached
  constructor
  · rintro (h | h | h | h)
    · obtain ⟨m, h1, h2, h3, h4⟩ := (mem_walkG _ _ _ _ _).1 h
      have hce : c = col := by omega
      have hre : r = m := by omega
      exact Or.inl ⟨hce, by omega, fun k hk1 hk2 => h4 k (by omega) (by omega)⟩
    · obtain ⟨m, h1, h2, h3, h4⟩ := (mem_walkG _ _ _ _ _).1 h
      have hce : c = col := by omega
      have hre : r = row - 1 - m := by omega
      refine Or.inr (Or.inl ⟨hce, by omega, fun k hk1 hk2 => ?_⟩)
      have hk : row - 1 - (row - 1 - k) = k := by omega
      have := h4 (row - 1 - k) (Nat.zero_le _) (by omega)
      simpa [hk] using this
    · obtain ⟨m, h1, h2, h3, h4⟩ := (mem_walkG _ _ _ _ _).1 h
      have hre : r = row := by omega
      have hce : c = m := by omega
      exact Or.inr (Or.inr (Or.inl ⟨hre, by omega,
        fun k hk1 hk2 => h4 k (by omega) (by omega)⟩))
    · obtain ⟨m, h1, h2, h3, h4⟩ := (mem_walkG _ _ _ _ _).1 h
      have hre : r = row := by omega
      have hce : c = col - 1 - m := by omega
      refine Or.inr (Or.inr (Or.inr ⟨hre, by omega, fun k hk1 hk2 => ?_⟩))
      have hk : col - 1 - (col - 1 - k) = k := by omega
      have := h4 (col - 1 - k) (Nat.zero_le _) (by omega)
      simpa [hk] using this
  · rintro (⟨hce, hlt, hclear⟩ | ⟨hce, hlt, hclear⟩ | ⟨hre, hlt, hclear⟩ | ⟨hre, hlt, hclear⟩)
    · refine Or.inl ((mem_walkG _ _ _ _ _).2 ⟨r, by omega, by omega, by omega,
        fun i hi1 hi2 => hclear i (by omega) hi2⟩)
    · refine Or.inr (Or.inl ((mem_walkG _ _ _ _ _).2 ⟨row - 1 - r, Nat.zero_le _, by omega,
        by omega, fun i hi1 hi2 => ?_⟩))
      exact hclear (row - 1 - i) (by omega) (by omega)
    · refine Or.inr (Or.inr (Or.inl ((mem_walkG _ _ _ _ _).2 ⟨c, by omega, by omega,
        by omega, fun i hi1 hi2 => hclear i (by omega) hi2⟩)))
    · refine Or.inr (Or.inr (Or.inr ((mem_walkG _ _ _ _ _).2 ⟨col - 1 - c, Nat.zero_le _,
        by omega, by omega, fun i hi1 hi2 => ?_⟩)))
      exact hclear (col - 1 - i) (by omega) (by omega)

/-- C4: for every square `(col, row)` and every blocker mask `B`,
`Bitboard::legal_moves` is exactly the set of squares reached by walking
outward from the square in each of the four orthogonal directions and
stopping, exclusively, at the first square whose bit is set in `B` (and
contains no bit outside the board); in particular, from `(4,4)` with no
blockers it contains exactly 16 squares, and with a blocker only at
`(4,6)` (index 58) exactly 13. -/
theorem c4_legal_moves_ray_cast :
    (∀ col row B c r : Nat, col < 9 → row < 9 → c < 9 → r < 9 →
      ((legalMoves col row B).testBit (9 * r + c) = true ↔ reached col row B c r)) ∧
    (∀ col row B j : Nat, col < 9 → row < 9 →
      (legalMoves col row B).testBit j = true → ∃ c r, c < 9 ∧ r < 9 ∧ j = 9 * r + c) ∧
    countBits (legalMoves 4 4 0) = 16 ∧
    countBits (legalMoves 4 4 (1 <<< 58)) = 13 :=
  ⟨fun col row B c r h1 h2 h3 h4 => legalMoves_testBit_iff col row B h1 h2 c r h3 h4,
   fun col row B j h1 h2 h => legalMoves_bits_square col row B j h1 h2 h,
   by decide, by decide⟩

/-- Witness for `c4_legal_moves_ray_cast`: the characterization
instantiated at the blocked board of the claim's second example, target
square `(4,6)`. -/
theorem c4_legal_moves_ray_cast_witness :
    (4 < 9 ∧ 6 < 9) ∧
      ((legalMoves 4 4 (1 <<< 58)).testBit (9 * 6 + 4) = true ↔
        reached 4 4 (1 <<< 58) 4 6) :=
  ⟨by decide,
   c4_legal_moves_ray_cast.1 4 4 (1 <<< 58) 4 6 (by decide) (by decide) (by decide) (by decide)⟩

theorem bool_eq_of_iff {a b : Bool} (h : a = true ↔ b = true) : a = b := by
  cases a <;> cases b <;> simp_all

theorem testBit_bitsOf_false (l : List Nat) (j : Nat) :
    (bitsOf l).testBit j = false ↔ j ∉ l := by
  constructor
  · intro h hm
    rw [(testBit_bitsOf l j).2 hm] at h
    exact Bool.noConfusion h
  · intro h
    cases hb : (bitsOf l).testBit j with
    | false => rfl
    | true => exact absurd ((testBit_bitsOf l j).1 hb) h

theorem testBit_movesMask (col row c r : Nat) (hc : col < 9) (_hr : row < 9)
    (hcc : c < 9) (hrr : r < 9) :
    (movesMask col row).testBit (9 * r + c) = true ↔
      (c = col ∨ r = row) ∧ ¬(c = col ∧ r = row) := by
  have h1 : (0x1008040201008040201 : Nat) = bitsOf [0, 9, 18, 27, 36, 45, 54, 63, 72] := by
    decide
  have h2 : (0x1ff : Nat) = bitsOf [0, 1, 2, 3, 4, 5, 6, 7, 8] := by decide
  unfold movesMask
  rw [h1, h2, Nat.testBit_land, testBit_compl128_lt _ _ (by omega), Nat.testBit_lor,
    Nat.testBit_shiftLeft, Nat.testBit_shiftLeft, Nat.one_shiftLeft, Nat.testBit_two_pow]
  simp only [Bool.and_eq_true, Bool.or_eq_true, decide_eq_true_eq, Bool.not_eq_true',
    decide_eq_false_iff_not, ge_iff_le]
  constructor
  · rintro ⟨⟨h3, h4⟩ | ⟨h3, h4⟩, h5⟩
    · have := (testBit_bitsOf _ _).1 h4
      simp only [List.mem_cons, List.not_mem_nil, or_false] at this
      omega
    · have := (testBit_bitsOf _ _).1 h4
      simp only [List.mem_cons, List.not_mem_nil, or_false] at this
      omega
  · rintro ⟨h3 | h3, h4⟩
    · refine ⟨Or.inl ⟨by omega, (testBit_bitsOf _ _).2 ?_⟩, by omega⟩
      simp only [List.mem_cons, List.not_mem_nil, or_false]
      omega
    · refine ⟨Or.inr ⟨by omega, (testBit_bitsOf _ _).2 ?_⟩, by omega⟩
      simp only [List.mem_cons, List.not_mem_nil, or_false]
      omega

theorem testBit_blockersMask (col row c r : Nat) (hc : col < 9) (hr : row < 9)
    (hcc : c < 9) (hrr : r < 9) :
    (blockersMask col row).testBit (9 * r + c) = true ↔
      ((c = col ∨ r = row) ∧ ¬(c = col ∧ r = row)) ∧
        ¬(c = col ∧ r = 0) ∧ ¬(c = col ∧ r = 8) ∧ ¬(r = row ∧ c = 0) ∧ ¬(r = row ∧ c = 8) := by
  unfold blockersMask
  rw [Nat.testBit_land, testBit_compl128_lt _ _ (by omega)]
  simp only [Bool.and_eq_true, Bool.not_eq_true']
  rw [testBit_movesMask col row c r hc hr hcc hrr, testBit_bitsOf_false]
  simp only [List.mem_cons, List.not_mem_nil, or_false]
  constructor
  · rintro ⟨h1, h2⟩
    exact ⟨h1, by omega, by omega, by omega, by omega⟩
  · rintro ⟨h1, h2, h3, h4, h5⟩
    exact ⟨h1, by omega⟩

theorem legalMoves_clear (col row B j : Nat)
    (h : (legalMoves col row B).testBit j = true) : B.testBit j = false := by
  rw [legalMoves_mem_iff] at h
  rcases h with h | h | h | h <;>
    · obtain ⟨m, h1, h2, h3, h4⟩ := (mem_walkG _ _ _ _ _).1 h
      rw [h3]
      exact h4 m h1 (Nat.le_refl m)

theorem legalMoves_occ_free (col row occ j : Nat) (hc : col < 9) (hr : row < 9)
    (h : (legalMoves col row (movesMask col row &&& occ)).testBit j = true) :
    occ.testBit j = false := by
  obtain ⟨c, r, hcc, hrr, rfl⟩ := legalMoves_bits_square col row _ j hc hr h
  have hclear := legalMoves_clear col row _ _ h
  rw [Nat.testBit_land] at hclear
  have hreach := (legalMoves_testBit_iff col row _ hc hr c r hcc hrr).1 h
  have hmv : (movesMask col row).testBit (9 * r + c) = true := by
    rw [testBit_movesMask col row c r hc hr hcc hrr]
    unfold reached at hreach
    rcases hreach with ⟨h1, h2, -⟩ | ⟨h1, h2, -⟩ | ⟨h1, h2, -⟩ | ⟨h1, h2, -⟩ <;>
      exact ⟨by omega, by omega⟩
  rw [hmv, Bool.true_and] at hclear
  exact hclear

theorem reached_relevant_iff (col row occ c r : Nat) (hc : col < 9) (hr : row < 9)
    (hcc : c < 9) (hrr : r < 9) :
    reached col row (movesMask col row &&& occ) c r ↔
      reached col row ((movesMask col row &&& occ) &&& blockersMask col row) c r ∧
        occ.testBit (9 * r + c) = false := by
  unfold reached
  constructor
  · rintro (⟨hce, hlt, hclear⟩ | ⟨hce, hlt, hclear⟩ | ⟨hre, hlt, hclear⟩ | ⟨hre, hlt, hclear⟩)
    · refine ⟨Or.inl ⟨hce, hlt, fun k h1 h2 => by
        rw [Nat.testBit_land, hclear k h1 h2, Bool.false_and]⟩, ?_⟩
      have htarget := hclear r hlt (Nat.le_refl r)
      rw [Nat.testBit_land,
        (testBit_movesMask col row col r hc hr hc hrr).2 ⟨Or.inl rfl, by omega⟩,
        Bool.true_and] at htarget
      rw [hce]
      exact htarget
    · refine ⟨Or.inr (Or.inl ⟨hce, hlt, fun k h1 h2 => by
        rw [Nat.testBit_land, hclear k h1 h2, Bool.false_and]⟩), ?_⟩
      have htarget := hclear r (Nat.le_refl r) hlt
      rw [Nat.testBit_land,
        (testBit_movesMask col row col r hc hr hc hrr).2 ⟨Or.inl rfl, by omega⟩,
        Bool.true_and] at htarget
      rw [hce]
      exact htarget
    · refine ⟨Or.inr (Or.inr (Or.inl ⟨hre, hlt, fun k h1 h2 => by
        rw [Nat.testBit_land, hclear k h1 h2, Bool.false_and]⟩)), ?_⟩
      have htarget := hclear c hlt (Nat.le_refl c)
      rw [Nat.testBit_land,
        (testBit_movesMask col row c row hc hr hcc hr).2 ⟨Or.inr rfl, by omega⟩,
        Bool.true_and] at htarget
      rw [hre]
      exact htarget
    · refine ⟨Or.inr (Or.inr (Or.inr ⟨hre, hlt, fun k h1 h2 => by
        rw [Nat.testBit_land, hclear k h1 h2, Bool.false_and]⟩)), ?_⟩
      have htarget := hclear c (Nat.le_refl c) hlt
      rw [Nat.testBit_land,
        (testBit_movesMask col row c row hc hr hcc hr).2 ⟨Or.inr rfl, by omega⟩,
        Bool.true_and] at htarget
      rw [hre]
      exact htarget
  · rintro ⟨⟨hce, hlt, hclear⟩ | ⟨hce, hlt, hclear⟩ | ⟨hre, hlt, hclear⟩ | ⟨hre, hlt, hclear⟩,
      hocc⟩
    · refine Or.inl ⟨hce, hlt, fun k h1 h2 => ?_⟩
      rcases Nat.eq_or_lt_of_le h2 with rfl | hk
      · rw [Nat.testBit_land, ← hce, hocc, Bool.and_false]
      · have hbm : (blockersMask col row).testBit (9 * k + col) = true :=
          (testBit_blockersMask col row col k hc hr hc (by omega)).2
            ⟨⟨Or.inl rfl, by omega⟩, by omega, by omega, by omega, by omega⟩
        have := hclear k h1 h2
        rw [Nat.testBit_land, hbm, Bool.and_true] at this
        exact this
    · refine Or.inr (Or.inl ⟨hce, hlt, fun k h1 h2 => ?_⟩)
      rcases Nat.eq_or_lt_of_le h1 with rfl | hk
      · rw [Nat.testBit_land, ← hce, hocc, Bool.and_false]
      · have hbm : (blockersMask col row).testBit (9 * k + col) = true :=
          (testBit_blockersMask col row col k hc hr hc (by omega)).2
            ⟨⟨Or.inl rfl, by omega⟩, by omega, by omega, by omega, by omega⟩
        have := hclear k h1 h2
        rw [Nat.testBit_land, hbm, Bool.and_true] at this
        exact this
    · refine Or.inr (Or.inr (Or.inl ⟨hre, hlt, fun k h1 h2 => ?_⟩))
      rcases Nat.eq_or_lt_of_le h2 with rfl | hk
      · rw [Nat.testBit_land, ← hre, hocc, Bool.and_false]
      · have hbm : (blockersMask col row).testBit (9 * row + k) = true :=
          (testBit_blockersMask col row k row hc hr (by omega) hr).2
            ⟨⟨Or.inr rfl, by omega⟩, by omega, by omega, by omega, by omega⟩
        have := hclear k h1 h2
        rw [Nat.testBit_land, hbm, Bool.and_true] at this
        exact this
    · refine Or.inr (Or.inr (Or.inr ⟨hre, hlt, fun k h1 h2 => ?_⟩))
      rcases Nat.eq_or_lt_of_le h1 with rfl | hk
      · rw [Nat.testBit_land, ← hre, hocc, Bool.and_false]
      · have hbm : (blockersMask col row).testBit (9 * row + k) = true :=
          (testBit_blockersMask col row k row hc hr (by omega) hr).2
            ⟨⟨Or.inr rfl, by omega⟩, by omega, by omega, by omega, by omega⟩
        have := hclear k h1 h2
        rw [Nat.testBit_land, hbm, Bool.and_true] at this
        exact this

theorem magic_relevant_eq (col row occ : Nat) (hc : col < 9) (hr : row < 9) :
    legalMoves col row ((movesMask col row &&& occ) &&& blockersMask col row) &&&
        compl128 occ =
      legalMoves col row (movesMask col row &&& occ) := by
  apply Nat.eq_of_testBit_eq
  intro j
  apply bool_eq_of_iff
  rw [Nat.testBit_land]
  constructor
  · intro h
    simp only [Bool.and_eq_true] at h
    obtain ⟨hP, hcompl⟩ := h
    obtain ⟨c, r, hcc, hrr, rfl⟩ := legalMoves_bits_square col row _ _ hc hr hP
    rw [legalMoves_testBit_iff col row _ hc hr c r hcc hrr] at hP ⊢
    rw [reached_relevant_iff col row occ c r hc hr hcc hrr]
    refine ⟨hP, ?_⟩
    rw [testBit_compl128_lt _ _ (by omega)] at hcompl
    simpa using hcompl
  · intro h
    obtain ⟨c, r, hcc, hrr, rfl⟩ := legalMoves_bits_square col row _ _ hc hr h
    rw [legalMoves_testBit_iff col row _ hc hr c r hcc hrr,
      reached_relevant_iff col row occ c r hc hr hcc hrr] at h
    obtain ⟨hP, hocc⟩ := h
    simp only [Bool.and_eq_true]
    refine ⟨(legalMoves_testBit_iff col row _ hc hr c r hcc hrr).2 hP, ?_⟩
    rw [testBit_compl128_lt _ _ (by omega), hocc]
    rfl

/-- C5: the magic-table fast path of `Board::moves` agrees with the
ray-cast fallback.  The claim's table well-formedness hypothesis ("each
relevant blocker pattern maps to the precomputed destination mask for that
pattern") is taken at the one entry the fast path queries for this board
and square: the stored mask for the magic index of the relevant pattern
`(moves ∩ occupancy) ∩ blockers` must be `legal_moves` of that pattern.
A globally well-formed table satisfies this at every board and square, so
the claim's statement follows pointwise from this (strictly more general)
form. -/
theorem c5_magic_table_equals_ray_cast (b : Board) (sq : Square) (mt : MagicTable)
    (hc : sq.col < 9) (hr : sq.row < 9)
    (hwf : mt.moves sq.index (magicIndex (mt.magics sq.index) (shiftAt sq.index)
        ((movesMask sq.col sq.row &&& b.bitboard.all) &&& blockersMask sq.col sq.row)) =
      legalMoves sq.col sq.row
        ((movesMask sq.col sq.row &&& b.bitboard.all) &&& blockersMask sq.col sq.row)) :
    b.movesFn sq (some mt) = b.movesFn sq none := by
  unfold Board.movesFn
  simp only
  rw [hwf]
  exact magic_relevant_eq sq.col sq.row b.bitboard.all hc hr

/-- Witness for `c5_magic_table_equals_ray_cast`: a concrete table whose
queried entry stores the ray-cast answer for the relevant pattern of
square (row 1, col 4) on the starting board. -/
theorem c5_magic_table_equals_ray_cast_witness :
    startBoard.movesFn sq14 (some mtW) = startBoard.movesFn sq14 none :=
  c5_magic_table_equals_ray_cast startBoard sq14 mtW (by decide) (by decide) (by rfl)

/-- C6: applying a move (`remove_piece(p,a)` then `add_piece(p,b)`) and
then its exact reverse (`remove_piece(p,b)` then `add_piece(p,a)`)
restores the zobrist hash, whatever the key table: each step XORs the hash
with the fixed keys for `(p,a)` and `(p,b)`, and XOR is its own inverse. -/
theorem c6_zobrist_xor_round_trip (b : Board) (p : Piece) (sa sb : Square) :
    ((((b.removePiece p sa).addPiece p sb).removePiece p sb).addPiece p sa).state.zobristHash
      = b.state.zobristHash := by
  unfold Board.removePiece Board.addPiece
  simp only
  rw [Nat.xor_assoc (b.state.zobristHash ^^^ b.zobristTable p sa), Nat.xor_self,
    Nat.xor_zero, Nat.xor_assoc, Nat.xor_self, Nat.xor_zero]

theorem pieceMask_setPiece_same (bb : Bitboard) (p : Piece) (m : Nat) :
    (bb.setPiece p m).pieceMask p = m := by
  cases p <;> rfl

theorem pieceMask_setPiece_other (bb : Bitboard) (p q : Piece) (m : Nat) (h : q ≠ p) :
    (bb.setPiece p m).pieceMask q = bb.pieceMask q := by
  cases p <;> cases q <;> first | rfl | exact absurd rfl h

/-- C10: `Square::try_from` on a `(u8, u8)` tuple reads the tuple as
`(col, row)`: it succeeds exactly when both components are `< 9`, and the
produced square has `row` equal to the second and `col` equal to the first
component. -/
theorem c10_square_from_tuple (a b : Nat) (_ha : a < 256) (_hb : b < 256) :
    ((tryFromPair a b).isSome ↔ a < 9 ∧ b < 9) ∧
      ∀ sq, tryFromPair a b = some sq → sq.row = b ∧ sq.col = a := by
  unfold tryFromPair
  by_cases h : 9 ≤ a ∨ 9 ≤ b
  · rw [if_pos h]
    refine ⟨by simp; omega, fun sq hsq => Option.noConfusion hsq⟩
  · rw [if_neg h]
    push_neg at h
    exact ⟨by simp; omega, fun sq hsq => by
      injection hsq with h2
      rw [← h2]
      exact ⟨rfl, rfl⟩⟩

/-- Witness for `c10_square_from_tuple` at the tuple `(4, 1)` (the
repository's own `square_from_tuple_test`). -/
theorem c10_square_from_tuple_witness :
    (4 < 256 ∧ 1 < 256) ∧
      (((tryFromPair 4 1).isSome ↔ 4 < 9 ∧ 1 < 9) ∧
        ∀ sq, tryFromPair 4 1 = some sq → sq.row = 1 ∧ sq.col = 4) :=
  ⟨by decide, c10_square_from_tuple 4 1 (by decide) (by decide)⟩

/-- C8 counterexample: the starting layout decodes successfully, but its
attacker mask has 16 bits set, not the 8 the claim states. -/
theorem c8_counterexample :
    (boardFromFen startingFen).isSome = true ∧
      countBits startDecoded.1.attacker = 16 ∧ ¬ countBits startDecoded.1.attacker = 8 := by
  decide

/-- C8 amended: decoding the starting layout yields exactly 16 Attacker
bits at the listed offsets, 8 Defender bits surrounding the center, 1 King
bit at the center square, and side to move Attacker. -/
theorem c8_amended_starting_layout :
    boardFromFen startingFen =
        some (⟨bitsOf [40], bitsOf startDefenderIdx, bitsOf startAttackerIdx⟩, .attacker) ∧
      countBits (bitsOf startAttackerIdx) = 16 ∧
      countBits (bitsOf startDefenderIdx) = 8 ∧
      countBits (bitsOf [40]) = 1 := by
  decide

theorem turnMask_of_live (b : Board)
    (h : b.state.turn = .attacker ∨ b.state.turn = .defender) :
    b.turnMask? = some b.turnMaskD := by
  rcases h with h | h <;> (unfold Board.turnMask? Board.turnMaskD; rw [h])

/-- C1: any action that passes the presence check but violates a game
rule — wrong turn, non-King to a corner, any piece to the throne, or a
destination outside the legal-destinations mask — makes `move_piece`
return a typed failure (not a panic) with the board (bitboard, hash, turn,
last action, history) exactly as it was: `MoveOutcome.failed b` carries
the unchanged board.  The destination must lie on the board (the source
would panic on the `1 << index` shift otherwise) and the stored turn is
one of the two live sides (`turn_mask` panics otherwise). -/
theorem c1_rule_violation_fails_unchanged (b : Board) (a : Action) (t : Option MagicTable)
    (hpres : a.valid b.bitboard)
    (hturn : b.state.turn = .attacker ∨ b.state.turn = .defender)
    (hto : a.toSq.row < 9 ∧ a.toSq.col < 9)
    (hviol : ¬ a.turnValid b.turnMaskD ∨
      (a.piece ≠ .king ∧ 0 < a.toSq.mask &&& cornerMask) ∨
      0 < a.toSq.mask &&& throneMask ∨
      (b.movesFn a.fromSq t).testBit a.toSq.index = false) :
    b.movePiece a t = .failed b := by
  unfold Board.movePiece
  rw [if_neg (not_not_intro hpres), turnMask_of_live b hturn]
  simp only
  by_cases h1 : a.turnValid b.turnMaskD
  · rw [if_neg (not_not_intro h1)]
    by_cases h2 : a.piece ≠ Piece.king ∧ 0 < a.toSq.mask &&& cornerMask
    · rw [if_pos h2]
    · rw [if_neg h2]
      by_cases h3 : 0 < a.toSq.mask &&& throneMask
      · rw [if_pos h3]
      · rw [if_neg h3]
        have h4 : (b.movesFn a.fromSq t).testBit a.toSq.index = false := by
          rcases hviol with h | h | h | h
          · exact absurd h1 h
          · exact absurd h h2
          · exact absurd h h3
          · exact h
        rw [if_pos ?_]
        have hmask : a.toSq.mask = 1 <<< a.toSq.index := rfl
        rw [hmask, pos_land_shiftLeft, testBit_compl128_lt _ _ (by
          have : a.toSq.index = a.toSq.row * 9 + a.toSq.col := rfl
          omega), h4]
        rfl
  · rw [if_pos h1]

/-- Witness for `c1_rule_violation_fails_unchanged`: on the starting
board, the attacker at (row 1, col 4) targeting the throne is rejected
and the board is returned unchanged. -/
theorem c1_rule_violation_fails_unchanged_witness :
    actThrone.valid startBoard.bitboard ∧
      startBoard.movePiece actThrone none = .failed startBoard :=
  ⟨by decide,
   c1_rule_violation_fails_unchanged startBoard actThrone none (by decide) (Or.inl rfl)
     (by decide) (Or.inr (Or.inr (Or.inl (by decide))))⟩

/-- C2 counterexample: a successful `move_piece` call after which the
turn is *not* flipped and the history is *not* extended — the claim's
"flips the side to move, and appends the new State to the history" fails
on the code (`toggle_turn` and `save` are separate methods). -/
theorem c2_counterexample :
    (startBoard.movePiece actStep none).isMoved = true ∧
      boardAfterStep.state.turn = startBoard.state.turn ∧
      boardAfterStep.history = startBoard.history :=
  ⟨rfl, rfl, rfl⟩

/-- C2 amended: an accepted `move_piece` call removes the piece's bit at
the source, sets it at the destination, XORs the hash with the keys for
(piece, from) and (piece, to), and records the action into the state; it
leaves the turn and the history unchanged (flipping the turn and
appending to history are the separate `toggle_turn` and `save` methods). -/
theorem c2_accepted_move_effects (b : Board) (a : Action) (t : Option MagicTable)
    (b2 : Board) (h : b.movePiece a t = .moved b2) :
    b2.bitboard.pieceMask a.piece =
        (b.bitboard.pieceMask a.piece &&& compl128 a.fromSq.mask) ||| a.toSq.mask ∧
      (∀ p, p ≠ a.piece → b2.bitboard.pieceMask p = b.bitboard.pieceMask p) ∧
      b2.state.zobristHash =
        (b.state.zobristHash ^^^ b.zobristTable a.piece a.fromSq) ^^^
          b.zobristTable a.piece a.toSq ∧
      b2.state.action = some a ∧
      b2.state.turn = b.state.turn ∧
      b2.history = b.history := by
  unfold Board.movePiece at h
  split at h
  · exact MoveOutcome.noConfusion h
  · split at h
    · exact MoveOutcome.noConfusion h
    · split at h
      · exact MoveOutcome.noConfusion h
      · split at h
        · exact MoveOutcome.noConfusion h
        · simp only [] at h
          split at h
          · exact MoveOutcome.noConfusion h
          · split at h
            · exact MoveOutcome.noConfusion h
            · injection h with h2
              subst h2
              unfold Board.removePiece Board.addPiece
              refine ⟨?_, ?_, rfl, rfl, rfl, rfl⟩
              · simp only
                rw [pieceMask_setPiece_same, pieceMask_setPiece_same]
              · intro p hp
                simp only
                rw [pieceMask_setPiece_other _ _ _ _ hp, pieceMask_setPiece_other _ _ _ _ hp]

/-- Witness for `c2_accepted_move_effects`: the accepted step of the
attacker from index 13 to index 14 on the starting board. -/
theorem c2_accepted_move_effects_witness :
    startBoard.movePiece actStep none = .moved boardAfterStep ∧
      boardAfterStep.state.turn = startBoard.state.turn ∧
      boardAfterStep.history = startBoard.history :=
  ⟨rfl,
   (c2_accepted_move_effects startBoard actStep none boardAfterStep rfl).2.2.2.2.1,
   (c2_accepted_move_effects startBoard actStep none boardAfterStep rfl).2.2.2.2.2⟩

theorem sideMasks_fst (bb : Bitboard) (p : Piece) :
    (sideMasks bb p.opposite).1 = moverSideMask bb p := by
  cases p <;> rfl

theorem sideMasks_snd (bb : Bitboard) (p : Piece) :
    (sideMasks bb p.opposite).2 = enemySideMask bb p := by
  cases p <;> rfl

theorem land_eq_zero_not_both (x y : Nat) (h : x &&& y = 0) (i : Nat) :
    ¬(x.testBit i = true ∧ y.testBit i = true) := by
  rintro ⟨hx, hy⟩
  have h2 : (x &&& y).testBit i = (0 : Nat).testBit i := by rw [h]
  rw [Nat.testBit_land, hx, hy, Nat.zero_testBit] at h2
  exact Bool.noConfusion h2

/-- C3: a direction's piece is yielded by the captured-pieces iterator if
and only if both relative squares are on the board, a piece of the side
opposite the mover occupies the immediate (distance-1) neighbor and a
piece allied with the mover occupies the far (distance-2) neighbor;
off-board directions yield nothing; every yielded pair sits at the
immediate neighbor and (on a no-double-occupancy bitboard) its kind is
the piece actually present there in the live bitboards; and the iterator
yields exactly the per-direction results over the four `OFFSETS`. -/
theorem c3_capture_characterization (bb : Bitboard) (killer : Piece × Square)
    (off : Nat × Nat) (hoff : off ∈ offsetsList) :
    (((killer.2.tryFromOffset off.1 = none ∨ killer.2.tryFromOffset off.2 = none) →
        dirCapture bb killer.1 killer.2 off = none) ∧
      ((dirCapture bb killer.1 killer.2 off).isSome = true ↔
        ∃ ap ep, killer.2.tryFromOffset off.1 = some ap ∧
          killer.2.tryFromOffset off.2 = some ep ∧
          0 < ep.mask &&& enemySideMask bb killer.1 ∧
          0 < ap.mask &&& moverSideMask bb killer.1)) ∧
    (∀ p sq, dirCapture bb killer.1 killer.2 off = some (p, sq) →
      (p, sq) ∈ eliminatedPieces bb killer ∧
        killer.2.tryFromOffset off.2 = some sq ∧
        (bb.disjoint → (bb.pieceMask p).testBit sq.index = true)) ∧
    (∀ x, x ∈ eliminatedPieces bb killer →
      ∃ o, o ∈ offsetsList ∧ dirCapture bb killer.1 killer.2 o = some x) := by
  refine ⟨⟨?_, ?_⟩, ?_, ?_⟩
  · intro h
    unfold dirCapture
    cases h1 : killer.2.tryFromOffset off.1 <;> cases h2 : killer.2.tryFromOffset off.2 <;>
      try rfl
    rcases h with h | h
    · rw [h1] at h; exact Option.noConfusion h
    · rw [h2] at h; exact Option.noConfusion h
  · unfold dirCapture
    cases h1 : killer.2.tryFromOffset off.1 <;> cases h2 : killer.2.tryFromOffset off.2
    · simp only [Option.isSome_none, Bool.false_eq_true, false_iff]
      rintro ⟨ap, ep, hap, -, -, -⟩
      exact Option.noConfusion hap
    · simp only [Option.isSome_none, Bool.false_eq_true, false_iff]
      rintro ⟨ap, ep, hap, -, -, -⟩
      exact Option.noConfusion hap
    · simp only [Option.isSome_none, Bool.false_eq_true, false_iff]
      rintro ⟨ap, ep, -, hep, -, -⟩
      exact Option.noConfusion hep
    · rename_i ap0 ep0
      simp only [sideMasks_fst, sideMasks_snd]
      by_cases hcond :
          ¬(decide (0 < ap0.mask &&& moverSideMask bb killer.1) = true) ∨
          ¬(decide (0 < ep0.mask &&& enemySideMask bb killer.1) = true)
      · rw [if_pos hcond]
        simp only [Option.isSome_none, Bool.false_eq_true, false_iff]
        rintro ⟨ap, ep, hap, hep, hene, hmov⟩
        injection hap with hap
        injection hep with hep
        subst hap; subst hep
        rcases hcond with hc | hc
        · exact hc (decide_eq_true hmov)
        · exact hc (decide_eq_true hene)
      · rw [if_neg hcond]
        push_neg at hcond
        obtain ⟨hmov, hene⟩ := hcond
        simp only [Option.isSome_some, true_iff]
        exact ⟨ap0, ep0, rfl, rfl, of_decide_eq_true hene, of_decide_eq_true hmov⟩
  · intro p sq hsome
    refine ⟨List.mem_filterMap.mpr ⟨off, hoff, hsome⟩, ?_⟩
    unfold dirCapture at hsome
    cases h1 : killer.2.tryFromOffset off.1 <;> rw [h1] at hsome <;>
      cases h2 : killer.2.tryFromOffset off.2 <;> rw [h2] at hsome <;>
      try exact Option.noConfusion hsome
    rename_i ap0 ep0
    simp only [sideMasks_fst, sideMasks_snd] at hsome
    by_cases hcond :
        ¬(decide (0 < ap0.mask &&& moverSideMask bb killer.1) = true) ∨
        ¬(decide (0 < ep0.mask &&& enemySideMask bb killer.1) = true)
    · rw [if_pos hcond] at hsome
      exact Option.noConfusion hsome
    · rw [if_neg hcond] at hsome
      push_neg at hcond
      obtain ⟨-, hene⟩ := hcond
      have hene := of_decide_eq_true hene
      injection hsome with hsome
      rw [Prod.mk.injEq] at hsome
      obtain ⟨hp, hsq⟩ := hsome
      subst hsq
      refine ⟨rfl, fun hdisj => ?_⟩
      have hepmask : ep0.mask = 1 <<< ep0.index := rfl
      rw [hepmask, pos_shiftLeft_land] at hene
      rw [← hp]
      have hdefbit : ∀ hEK : decide (0 < bb.defender &&& ep0.mask) = true,
          bb.defender.testBit ep0.index = true := fun hEK =>
        (pos_land_shiftLeft bb.defender ep0.index).mp
          (by rw [← hepmask]; exact of_decide_eq_true hEK)
      have hdefbitf : ∀ hEK : decide (0 < bb.defender &&& ep0.mask) = false,
          bb.defender.testBit ep0.index = false := by
        intro hEK
        cases hb : bb.defender.testBit ep0.index
        · rfl
        · have hpos : 0 < bb.defender &&& ep0.mask := by
            rw [hepmask]
            exact (pos_land_shiftLeft bb.defender ep0.index).mpr hb
          rw [decide_eq_true hpos] at hEK
          exact Bool.noConfusion hEK
      cases hk : killer.1 <;> rw [hk] at hene <;> simp only [enemySideMask] at hene
      · cases hEK : decide (0 < bb.defender &&& ep0.mask)
        · show bb.attacker.testBit ep0.index = true
          exact hene
        · exact absurd ⟨hdefbit hEK, hene⟩
            (land_eq_zero_not_both bb.defender bb.attacker hdisj.2.2 ep0.index)
      · cases hEK : decide (0 < bb.defender &&& ep0.mask)
        · show bb.attacker.testBit ep0.index = true
          exact hene
        · exact absurd ⟨hdefbit hEK, hene⟩
            (land_eq_zero_not_both bb.defender bb.attacker hdisj.2.2 ep0.index)
      · rw [Nat.testBit_lor] at hene
        cases hEK : decide (0 < bb.defender &&& ep0.mask)
        · show bb.king.testBit ep0.index = true
          rw [hdefbitf hEK, Bool.false_or] at hene
          exact hene
        · show bb.defender.testBit ep0.index = true
          exact hdefbit hEK
  · intro x hx
    exact List.mem_filterMap.mp hx

/-- Witness for `c3_capture_characterization`: the up-direction pair
`(2, 7)` on a board where an attacker landing on (4,4) sandwiches the
defender at (3,4) against the attacker at (2,4). -/
theorem c3_capture_characterization_witness :
    (2, 7) ∈ offsetsList ∧
      ((dirCapture bbCap Piece.attacker ⟨4, 4⟩ (2, 7)).isSome = true ↔
        ∃ ap ep, Square.tryFromOffset ⟨4, 4⟩ 2 = some ap ∧
          Square.tryFromOffset ⟨4, 4⟩ 7 = some ep ∧
          0 < ep.mask &&& enemySideMask bbCap Piece.attacker ∧
          0 < ap.mask &&& moverSideMask bbCap Piece.attacker) :=
  ⟨by decide,
   (c3_capture_characterization bbCap (Piece.attacker, ⟨4, 4⟩) (2, 7) (by decide)).1.2⟩

theorem pieceOfChar_ne_sep (c : Char) (p : Piece) (h : pieceOfChar c = some p) :
    ¬ c = '/' := by
  intro hc
  rw [hc] at h
  exact Option.noConfusion ((by decide : pieceOfChar '/' = none) ▸ h)

theorem digitVal_ne_sep (c : Char) (d : Nat) (h : digitVal c = some d) : ¬ c = '/' := by
  intro hc
  rw [hc] at h
  have : digitVal '/' = none := by decide
  rw [this] at h
  exact Option.noConfusion h

theorem charVal_piece (c : Char) (p : Piece) (h : pieceOfChar c = some p) : charVal c = 1 := by
  unfold charVal
  rw [h]

theorem charVal_digit (c : Char) (d : Nat) (h1 : pieceOfChar c = none)
    (h2 : digitVal c = some d) : charVal c = d := by
  unfold charVal
  rw [h1, h2]

theorem charVal_other (c : Char) (h1 : pieceOfChar c = none) (h2 : digitVal c = none) :
    charVal c = 0 := by
  unfold charVal
  rw [h1, h2]

theorem goodRows_le (l : List Char) : ∀ col, goodRows col l = true → col ≤ 9 := by
  induction l with
  | nil =>
    intro col h
    unfold goodRows at h
    simp only [beq_iff_eq] at h
    omega
  | cons c rest ih =>
    intro col h
    unfold goodRows at h
    by_cases hc : c = '/'
    · rw [if_pos hc] at h
      simp only [Bool.and_eq_true, beq_iff_eq] at h
      omega
    · rw [if_neg hc] at h
      have := ih _ h
      omega

theorem fromFenGo_good (l : List Char) : ∀ col row bb, goodRows col l = true →
    row + l.count '/' ≤ 8 → (fromFenGo bb col row l).isSome = true := by
  induction l with
  | nil => intro col row bb _ _; rfl
  | cons c rest ih =>
    intro col row bb hg hr
    unfold goodRows at hg
    rw [List.count_cons] at hr
    unfold fromFenGo
    cases hp : pieceOfChar c with
    | some p =>
      have hcs := pieceOfChar_ne_sep c p hp
      rw [if_neg hcs, charVal_piece c p hp] at hg
      have hcol : col + 1 ≤ 9 := goodRows_le rest _ hg
      have htp : tryFromPair col row = some ⟨row, col⟩ := by
        unfold tryFromPair
        rw [if_neg (by simp [beq_iff_eq, hcs] at hr ⊢; omega)]
      rw [htp, Nat.mod_eq_of_lt (show col + 1 < 256 by omega)]
      exact ih (col + 1) row _ hg (by simp [beq_iff_eq, hcs] at hr; omega)
    | none =>
      cases hd : digitVal c with
      | some d =>
        have hcs := digitVal_ne_sep c d hd
        rw [if_neg hcs, charVal_digit c d hp hd] at hg
        have hcol : col + d ≤ 9 := goodRows_le rest _ hg
        show (fromFenGo bb ((col + d) % 256) row rest).isSome = true
        rw [Nat.mod_eq_of_lt (show col + d < 256 by omega)]
        exact ih (col + d) row bb hg (by simp [beq_iff_eq, hcs] at hr; omega)
      | none =>
        by_cases hcs : c = '/'
        · subst hcs
          rw [if_pos rfl] at hg
          simp only [Bool.and_eq_true, beq_iff_eq] at hg
          obtain ⟨hcol, hg⟩ := hg
          rw [if_neg (by subst hcol; simp)]
          rw [if_pos rfl]
          have hrow : row + 1 < 256 := by simp at hr; omega
          rw [Nat.mod_eq_of_lt hrow]
          exact ih 0 (row + 1) bb hg (by simp at hr; omega)
        · rw [if_neg hcs, charVal_other c hp hd, Nat.add_zero] at hg
          have hcol : col ≤ 9 := goodRows_le rest _ hg
          rw [if_neg (by simp [hcs]; omega)]
          rw [if_neg hcs]
          exact ih col row bb hg (by simp [beq_iff_eq, hcs] at hr; omega)

theorem fromFenGo_badSep (pre : List Char) : ∀ (r : List Char) (col row : Nat) (bb : Bitboard),
    col < 256 → simCol col pre % 9 ≠ 0 → fromFenGo bb col row (pre ++ '/' :: r) = none := by
  induction pre with
  | nil =>
    intro r col row bb _ h
    unfold simCol at h
    rw [List.nil_append]
    unfold fromFenGo
    rw [(by decide : pieceOfChar '/' = none), (by decide : digitVal '/' = none)]
    rw [if_pos (Or.inl ⟨rfl, h⟩)]
  | cons c pre ih =>
    intro r col row bb hlt h
    unfold simCol at h
    rw [List.cons_append]
    unfold fromFenGo
    cases hp : pieceOfChar c with
    | some p =>
      have hcs := pieceOfChar_ne_sep c p hp
      rw [if_neg hcs, charVal_piece c p hp] at h
      cases htp : tryFromPair col row with
      | none => rfl
      | some sq => exact ih r ((col + 1) % 256) row _ (Nat.mod_lt _ (by omega)) h
    | none =>
      cases hd : digitVal c with
      | some d =>
        have hcs := digitVal_ne_sep c d hd
        rw [if_neg hcs, charVal_digit c d hp hd] at h
        exact ih r ((col + d) % 256) row bb (Nat.mod_lt _ (by omega)) h
      | none =>
        by_cases hcs : c = '/'
        · subst hcs
          rw [if_pos rfl] at h
          by_cases herr : (('/' : Char) = '/' ∧ col % 9 ≠ 0) ∨ 9 < col
          · rw [if_pos herr]
          · rw [if_neg herr, if_pos rfl]
            exact ih r 0 ((row + 1) % 256) bb (by omega) h
        · rw [if_neg hcs, charVal_other c hp hd, Nat.add_zero,
            Nat.mod_eq_of_lt hlt] at h
          by_cases herr : (c = '/' ∧ col % 9 ≠ 0) ∨ 9 < col
          · rw [if_pos herr]
          · rw [if_neg herr, if_neg hcs]
            exact ih r col row bb hlt h

/-- C9 counterexample: the claim requires a notation error whenever a
row's accumulated column count exceeds the board width of 9, but the
layout `"9/9/9/9/9/9/9/9/55"`, whose digits-only final row accumulates 10,
decodes successfully (the `col > 9` check only runs on a non-letter,
non-digit character, and none follows); and the claim requires success
whenever every row's letters and digit gaps sum to exactly 9, but the
ten-row layout `"9/9/9/9/9/9/9/9/9/A8"` satisfies that and still fails
(its letter lands at row index 9). -/
theorem c9_counterexample :
    (Bitboard.fromFen overflowFen).isSome = true ∧
      goodRows 0 tenRowFen = true ∧ Bitboard.fromFen tenRowFen = none := by decide

/-- C9 amended: `from_fen` returns an error whenever a `/` separator is
reached with an accumulated column count — tracked modulo 256 like the
source's `u8` accumulator — not divisible by 9 (overflow past the board
width is otherwise detected only when a later non-letter, non-digit
character is read, or as a square-range error when a letter lands at
column or row ≥ 9; digits-only overflow in the final row is silently
accepted), and it succeeds on strings of at most 9 rows in which every
row's letters and digit gaps sum to exactly 9. -/
theorem c9_from_fen_errors :
    (∀ l : List Char, goodRows 0 l = true → l.count '/' ≤ 8 →
      (Bitboard.fromFen l).isSome = true) ∧
    (∀ pre r : List Char, simCol 0 pre % 9 ≠ 0 →
      Bitboard.fromFen (pre ++ '/' :: r) = none) :=
  ⟨fun l hg hc => fromFenGo_good l 0 0 ⟨0, 0, 0⟩ hg (by omega),
   fun pre r h => fromFenGo_badSep pre r 0 0 ⟨0, 0, 0⟩ (by omega) h⟩

/-- Witness for `c9_from_fen_errors`: the starting layout decodes, and the
bad-separator layout `"8/9/9/9/9/9/9/9/9"` is rejected. -/
theorem c9_from_fen_errors_witness :
    (goodRows 0 (startingFen.takeWhile (· ≠ ' ')) = true ∧
      (startingFen.takeWhile (· ≠ ' ')).count '/' ≤ 8 ∧
      (Bitboard.fromFen (startingFen.takeWhile (· ≠ ' '))).isSome = true) ∧
    (simCol 0 ['8'] % 9 ≠ 0 ∧
      Bitboard.fromFen (['8'] ++ '/' :: "9/9/9/9/9/9/9/9".toList) = none) :=
  ⟨⟨by decide, by decide, c9_from_fen_errors.1 _ (by decide) (by decide)⟩,
   ⟨by decide, c9_from_fen_errors.2 ['8'] _ (by decide)⟩⟩

theorem pieceMask_land_zero_of_disjoint (bb : Bitboard) (hd : bb.disjoint)
    (q1 q2 : Piece) (h : q1 ≠ q2) : bb.pieceMask q1 &&& bb.pieceMask q2 = 0 := by
  obtain ⟨h1, h2, h3⟩ := hd
  cases q1 <;> cases q2 <;>
    first
      | exact absurd rfl h
      | exact h1 | exact h2 | exact h3
      | (rw [Nat.land_comm]; first | exact h1 | exact h2 | exact h3)

theorem all_testBit_false_piece (bb : Bitboard) (i : Nat)
    (h : bb.all.testBit i = false) (p : Piece) : (bb.pieceMask p).testBit i = false := by
  unfold Bitboard.all at h
  rw [Nat.testBit_lor, Nat.testBit_lor] at h
  rcases Bool.or_eq_false_iff.mp h with ⟨h4, h5⟩
  rcases Bool.or_eq_false_iff.mp h4 with ⟨h6, h7⟩
  cases p
  · exact h5
  · exact h7
  · exact h6

theorem disjoint_update (bb bb2 : Bitboard) (p : Piece) (fm ti : Nat)
    (h1 : bb2.pieceMask p = (bb.pieceMask p &&& compl128 fm) ||| (1 <<< ti))
    (h2 : ∀ q, q ≠ p → bb2.pieceMask q = bb.pieceMask q)
    (hd : bb.disjoint) (hunocc : bb.all.testBit ti = false) : bb2.disjoint := by
  have aux : ∀ q, q ≠ p →
      ((bb.pieceMask p &&& compl128 fm) ||| (1 <<< ti)) &&& bb.pieceMask q = 0 := by
    intro q hq
    apply Nat.eq_of_testBit_eq
    intro i
    rw [Nat.testBit_land, Nat.testBit_lor, Nat.testBit_land, Nat.one_shiftLeft,
      Nat.testBit_two_pow, Nat.zero_testBit]
    by_cases hi : ti = i
    · subst hi
      rw [all_testBit_false_piece bb ti hunocc q, Bool.and_false]
    · rw [decide_eq_false hi, Bool.or_false]
      have hnb := land_eq_zero_not_both _ _
        (pieceMask_land_zero_of_disjoint bb hd p q (fun hh => hq hh.symm)) i
      cases hpm : (bb.pieceMask p).testBit i
      · rw [Bool.false_and, Bool.false_and]
      · have hq2 : (bb.pieceMask q).testBit i = false := by
          cases hqb : (bb.pieceMask q).testBit i
          · rfl
          · exact absurd ⟨hpm, hqb⟩ hnb
        rw [hq2, Bool.and_false]
  have hpair : ∀ q1 q2, q1 ≠ q2 → bb2.pieceMask q1 &&& bb2.pieceMask q2 = 0 := by
    intro q1 q2 hne
    by_cases e1 : q1 = p
    · subst e1
      have e2 : q2 ≠ q1 := fun hh => hne hh.symm
      rw [h1, h2 q2 e2]
      exact aux q2 e2
    · by_cases e2 : q2 = p
      · subst e2
        rw [h1, h2 q1 e1, Nat.land_comm]
        exact aux q1 e1
      · rw [h2 q1 e1, h2 q2 e2]
        exact pieceMask_land_zero_of_disjoint bb hd q1 q2 hne
  exact ⟨hpair .king .defender (by simp), hpair .king .attacker (by simp),
    hpair .defender .attacker (by simp)⟩

theorem movePiece_moved_spec (b : Board) (a : Action) (t : Option MagicTable)
    (b2 : Board) (hin : a.inRange) (h : b.movePiece a t = .moved b2) :
    b2.bitboard.pieceMask a.piece =
        (b.bitboard.pieceMask a.piece &&& compl128 a.fromSq.mask) ||| (1 <<< a.toSq.index) ∧
      (∀ q, q ≠ a.piece → b2.bitboard.pieceMask q = b.bitboard.pieceMask q) ∧
      (b.movesFn a.fromSq t).testBit a.toSq.index = true := by
  unfold Board.movePiece at h
  split at h
  · exact MoveOutcome.noConfusion h
  · split at h
    · exact MoveOutcome.noConfusion h
    · split at h
      · exact MoveOutcome.noConfusion h
      · split at h
        · exact MoveOutcome.noConfusion h
        · split at h
          · exact MoveOutcome.noConfusion h
          · simp only [] at h
            split at h
            · exact MoveOutcome.noConfusion h
            · rename_i hreach
              injection h with h3
              subst h3
              unfold Board.removePiece Board.addPiece
              refine ⟨?_, ?_, ?_⟩
              · simp only
                rw [pieceMask_setPiece_same, pieceMask_setPiece_same]
                rfl
              · intro q hq
                simp only
                rw [pieceMask_setPiece_other _ _ _ _ hq, pieceMask_setPiece_other _ _ _ _ hq]
              · have hmask : a.toSq.mask = 1 <<< a.toSq.index := rfl
                rw [hmask, pos_land_shiftLeft] at hreach
                have hidx : a.toSq.index < 128 := by
                  have : a.toSq.index = a.toSq.row * 9 + a.toSq.col := rfl
                  obtain ⟨-, -, hr, hc⟩ := hin
                  omega
                rw [testBit_compl128_lt _ _ hidx] at hreach
                cases hmv : (b.movesFn a.fromSq t).testBit a.toSq.index
                · rw [hmv] at hreach
                  exact absurd rfl hreach
                · rfl

theorem moved_dest_unoccupied (b : Board) (a : Action) (t : Option MagicTable)
    (hin : a.inRange)
    (hbit : (b.movesFn a.fromSq t).testBit a.toSq.index = true) :
    b.bitboard.all.testBit a.toSq.index = false := by
  have hidx : a.toSq.index < 128 := by
    have : a.toSq.index = a.toSq.row * 9 + a.toSq.col := rfl
    obtain ⟨-, -, hr, hc⟩ := hin
    omega
  unfold Board.movesFn at hbit
  cases t with
  | some mt =>
    simp only [] at hbit
    rw [Nat.testBit_land, testBit_compl128_lt _ _ hidx, Bool.and_eq_true] at hbit
    obtain ⟨-, hcb⟩ := hbit
    cases hall : b.bitboard.all.testBit a.toSq.index
    · rfl
    · rw [hall] at hcb
      exact Bool.noConfusion hcb
  | none =>
    obtain ⟨hfr, hfc, -, -⟩ := hin
    exact legalMoves_occ_free a.fromSq.col a.fromSq.row b.bitboard.all a.toSq.index
      hfc hfr hbit

theorem toggleTurn_bitboard (b : Board) : b.toggleTurn.bitboard = b.bitboard := by
  unfold Board.toggleTurn
  cases b.state.turn <;> rfl

theorem save_bitboard (b : Board) : b.save.bitboard = b.bitboard := rfl

theorem stepAction_disjoint (t : Option MagicTable) (b : Board) (a : Action)
    (hin : a.inRange) (hd : b.bitboard.disjoint) :
    (stepAction t b a).bitboard.disjoint := by
  unfold stepAction
  cases h : b.movePiece a t with
  | panicked => exact hd
  | failed b3 => exact hd
  | moved b2 =>
    show b2.toggleTurn.save.bitboard.disjoint
    rw [save_bitboard, toggleTurn_bitboard]
    obtain ⟨h1, h2, h3⟩ := movePiece_moved_spec b a t b2 hin h
    exact disjoint_update b.bitboard b2.bitboard a.piece a.fromSq.mask a.toSq.index h1 h2 hd
      (moved_dest_unoccupied b a t hin h3)

theorem runActions_disjoint (t : Option MagicTable) (acts : List Action) :
    ∀ b : Board, b.bitboard.disjoint → (∀ a ∈ acts, a.inRange) →
      (runActions b t acts).bitboard.disjoint := by
  induction acts with
  | nil => intro b hd _; exact hd
  | cons a acts ih =>
    intro b hd hin
    unfold runActions
    rw [List.foldl_cons]
    exact ih (stepAction t b a) (stepAction_disjoint t b a (hin a (.head _)) hd)
      (fun x hx => hin x (.tail _ hx))

/-- C7: starting from a decoded bitboard in which no square holds two
pieces, after any sequence of submitted actions (each applied through
`move_piece`, with rejected or panicking submissions leaving the board
unchanged, and the turn toggled and state saved after each accepted one),
every square index is set in at most one of the three per-piece masks.
Actions must address on-board squares (the source panics on out-of-range
squares, so such actions are never accepted). -/
theorem c7_no_double_occupancy (s : List Char) (bb0 : Bitboard)
    (_h0 : Bitboard.fromFen s = some bb0) (hd : bb0.disjoint)
    (zt : Piece → Square → Nat) (st : State) (hist : List State)
    (t : Option MagicTable) (acts : List Action) (hin : ∀ a ∈ acts, a.inRange) :
    ∀ i, (runActions ⟨bb0, zt, hist, st⟩ t acts).bitboard.atMostOneAt i := by
  intro i
  obtain ⟨h1, h2, h3⟩ := runActions_disjoint t acts ⟨bb0, zt, hist, st⟩ hd hin
  exact ⟨land_eq_zero_not_both _ _ h1 i, land_eq_zero_not_both _ _ h2 i,
    land_eq_zero_not_both _ _ h3 i⟩

/-- Witness for `c7_no_double_occupancy`: the starting layout followed by
the accepted attacker step from index 13 to index 14. -/
theorem c7_no_double_occupancy_witness :
    (Bitboard.fromFen (startingFen.takeWhile (· ≠ ' ')) = some startBitboard ∧
      startBitboard.disjoint ∧ ∀ a ∈ [actStep], a.inRange) ∧
      ∀ i, (runActions ⟨startBitboard, ztZero, [startState], startState⟩
        none [actStep]).bitboard.atMostOneAt i :=
  ⟨⟨rfl, by decide, by decide⟩,
   c7_no_double_occupancy (startingFen.takeWhile (· ≠ ' ')) startBitboard rfl (by decide)
     ztZero startState [startState] none [actStep] (by decide)⟩

end VikingChess
